import Mathlib

/-!
Verification of the prequ requirement-compilation core against its
natural-language specification.

Shallow embedding of the data model and operations of the repository.
The repository sources under `src/` contain `prequ/repositories/base.py`
(the `BaseRepository` collaborator interface), `prequ/locations.py`
(cache-directory glue, no logic) and the test files.  The helper module
`prequ/utils.py` (with `is_pinned_requirement`, `as_tuple`, `dedup`,
`format_specifier`), the requirement model and the resolver loop are not
under `src/`; those parts are modelled from the specification, as marked
in the individual doc comments.

Machine-level details (Python objects, pip's `InstallRequirement`) are
embedded as a plain record `Req`; version specifiers are (operator,
version-string) pairs; exceptions become `Except`/`Option` results.
-/

namespace Prequ

/-- A version-comparison predicate: an (operator, version) pair such as
`("==", "1.1")` or `("~=", "1.1")`.  Mirrors one element of pip's
`SpecifierSet`. -/
abbrev VSpec := String × String

/-- Whether a version string ends in the wildcard suffix `.*`. -/
def endsInStar (v : String) : Bool :=
  match v.data.reverse with
  | '*' :: '.' :: _ => true
  | _ => false

/-- Whether a single specifier is an exact (pinning) constraint: an
`==`-style operator whose version is not a `.*` wildcard.  (The test
`test_as_tuple` treats `foo==1.*` as not pinned.) -/
def isExact (s : VSpec) : Bool :=
  (s.1 == "==" || s.1 == "===") && !(endsInStar s.2)

/-- Modelled from the spec: the Requirement data model (spec section 3).
Canonical package name, specifier set (a set of operator/version pairs,
empty means "any"), extras, editable flag, source locator (VCS / URL /
local path descriptor) and provenance set (names of the parents that
pulled this requirement in). -/
structure Req where
  name : String
  specs : Finset VSpec
  extras : Finset String
  editable : Bool
  locator : Option String
  provenance : Finset String
deriving DecidableEq

/-- String comparison by underlying character list (the kernel-reducible
counterpart of `String`'s `<`; equivalent by `String.lt_iff_toList_lt`). -/
def strLT (a b : String) : Prop :=
  a.toList < b.toList

/-- String comparison by underlying character list (equivalent to
`String`'s `≤` by `String.le_iff_toList_le`). -/
def strLE (a b : String) : Prop :=
  a.toList ≤ b.toList

instance : DecidableRel strLT := fun a b => by
  unfold strLT; infer_instance

instance : DecidableRel strLE := fun a b => by
  unfold strLE; infer_instance

instance : IsTotal String strLE where
  total a b := le_total a.toList b.toList

instance : IsTrans String strLE where
  trans _ _ _ hab hbc := le_trans hab hbc

instance : IsAntisymm String strLE where
  antisymm _ _ hab hba := String.toList_inj.mp (le_antisymm hab hba)

/-- Deterministic linear ordering of version specifiers: by version
string first (this is the sort key `prequ` uses when formatting a
specifier set), then by operator to break ties. -/
def vspecLE (s t : VSpec) : Prop :=
  strLT s.2 t.2 ∨ (s.2 = t.2 ∧ strLE s.1 t.1)

instance : DecidableRel vspecLE := fun s t => by
  unfold vspecLE; infer_instance

instance : IsTotal VSpec vspecLE where
  total s t := by
    unfold vspecLE strLT strLE
    rcases lt_trichotomy s.2.toList t.2.toList with h | h | h
    · exact Or.inl (Or.inl h)
    · have he : s.2 = t.2 := String.toList_inj.mp h
      rcases le_total s.1.toList t.1.toList with h1 | h1
      · exact Or.inl (Or.inr ⟨he, h1⟩)
      · exact Or.inr (Or.inr ⟨he.symm, h1⟩)
    · exact Or.inr (Or.inl h)

instance : IsTrans VSpec vspecLE where
  trans s t u hst htu := by
    unfold vspecLE strLT strLE at *
    rcases hst with h | ⟨he, h1⟩
    · rcases htu with h' | ⟨he', _⟩
      · exact Or.inl (h.trans h')
      · exact Or.inl (he' ▸ h)
    · rcases htu with h' | ⟨he', h1'⟩
      · exact Or.inl (he ▸ h')
      · exact Or.inr ⟨he.trans he', h1.trans h1'⟩

instance : IsAntisymm VSpec vspecLE where
  antisymm s t hst hts := by
    unfold vspecLE strLT strLE at *
    rcases hst with h | ⟨he, h1⟩
    · rcases hts with h' | ⟨he', _⟩
      · exact absurd h' (lt_asymm h)
      · exact absurd h (he' ▸ lt_irrefl _)
    · rcases hts with h' | ⟨_, h1'⟩
      · exact absurd h' (he ▸ lt_irrefl _)
      · exact Prod.ext (String.toList_inj.mp (le_antisymm h1 h1')) he

/-- Sort the elements of a finite set into a list, by a total order.
(Unlike `Finset.sort` this is defined through `List.insertionSort`, so
it evaluates by kernel reduction.) -/
def sortFinset {α : Type} (r : α → α → Prop) [DecidableRel r]
    [IsTotal α r] [IsTrans α r] [IsAntisymm α r] (s : Finset α) : List α :=
  Quotient.liftOn s.val (fun l => l.insertionSort r) (fun l1 l2 h =>
    List.eq_of_perm_of_sorted
      ((List.perm_insertionSort r l1).trans (h.trans (List.perm_insertionSort r l2).symm))
      (List.sorted_insertionSort r l1) (List.sorted_insertionSort r l2))

theorem sortFinset_sorted {α : Type} (r : α → α → Prop) [DecidableRel r]
    [IsTotal α r] [IsTrans α r] [IsAntisymm α r] (s : Finset α) :
    List.Sorted r (sortFinset r s) := by
  rcases s with ⟨m, hm⟩
  induction m using Quotient.inductionOn with
  | h l => exact List.sorted_insertionSort r l

theorem sortFinset_length {α : Type} (r : α → α → Prop) [DecidableRel r]
    [IsTotal α r] [IsTrans α r] [IsAntisymm α r] (s : Finset α) :
    (sortFinset r s).length = s.card := by
  rcases s with ⟨m, hm⟩
  induction m using Quotient.inductionOn with
  | h l => simp [sortFinset, Finset.card]

theorem sortFinset_mem {α : Type} (r : α → α → Prop) [DecidableRel r]
    [IsTotal α r] [IsTrans α r] [IsAntisymm α r] (s : Finset α) (a : α) :
    a ∈ sortFinset r s ↔ a ∈ s := by
  rcases s with ⟨m, hm⟩
  induction m using Quotient.inductionOn with
  | h l =>
    simp only [sortFinset, Finset.mem_def, Quotient.liftOn_mk, Multiset.quot_mk_to_coe, Multiset.mem_coe]
    exact (List.perm_insertionSort r l).mem_iff

/-- The specifier set as a deterministically sorted list. -/
def sortSpecs (s : Finset VSpec) : List VSpec :=
  sortFinset vspecLE s

/-- When the specifier set consists of exactly one exact `==`-style
constraint, the pinned version; `none` otherwise. -/
def exactVersionOf (r : Req) : Option String :=
  match sortSpecs r.specs with
  | [s] => if isExact s then some s.2 else none
  | _ => none

/-- Modelled from the spec: `prequ.utils.is_pinned_requirement` is not
under `src/`.  Spec section 4.1: true iff exactly one `==`-style exact
constraint exists, or the editable flag / source locator is set. -/
def is_pinned_requirement (r : Req) : Bool :=
  r.editable || r.locator.isSome || (exactVersionOf r).isSome

/-- The extras of a requirement in sorted order. -/
def sortedExtras (r : Req) : List String :=
  sortFinset strLE r.extras

/-- The version string shown for a pinned requirement: the single exact
version when the specifier set pins one, otherwise (editable / source
locator requirement) the locator text. -/
def pinnedVersionDisplay (r : Req) : String :=
  (exactVersionOf r).getD (r.locator.getD "")

/-- Modelled from the spec: `prequ.utils.as_tuple` is not under `src/`.
Spec section 4.1: `as_tuple(req) -> (name, version_or_none,
sorted_extras)`; the version component is `None` when the requirement is
not pinned, and extras are sorted for deterministic comparison. -/
def as_tuple (r : Req) : String × Option String × List String :=
  (r.name,
   if is_pinned_requirement r then some (pinnedVersionDisplay r) else none,
   sortedExtras r)

/-! ### `BaseRepository` (from `src/prequ/repositories/base.py`)

The abstract class is embedded by passing the backend implementation
`_get_dependencies` as a function argument; the exception raised by
`get_dependencies` becomes an `Except.error`. -/

/-- The programming-error signal raised by `BaseRepository` when the
pinned-or-editable precondition of `get_dependencies` is violated
(Python raises `TypeError`). -/
inductive RepoError where
  | preconditionViolated
deriving DecidableEq

/-- `BaseRepository.get_dependencies` from `src/prequ/repositories/base.py`:
raises unless the requirement is editable or pinned, otherwise returns
the backend's `_get_dependencies` result. -/
def get_dependencies (impl : Req → Finset Req) (ireq : Req) :
    Except RepoError (Finset Req) :=
  if !(ireq.editable || is_pinned_requirement ireq) then
    .error .preconditionViolated
  else
    .ok (impl ireq)

/-- `BaseRepository.prepare_ireq` from `src/prequ/repositories/base.py`:
calls the backend `_get_dependencies` directly, with no precondition
check.  (Python discards the returned value; the embedding returns it so
that the backend invocation is observable.) -/
def prepare_ireq (impl : Req → Finset Req) (ireq : Req) :
    Except RepoError (Finset Req) :=
  .ok (impl ireq)

/-- Modelled from the spec: the hash-attachment pass (spec section 4.4)
is not under `src/` (only the abstract `get_hashes` declaration is).
Editable and source-locator requirements are exempt and receive the
empty set; a pinned plain requirement gets the repository's hash set;
an unpinned plain requirement violates the `get_hashes` precondition
(result `none`).  The repository hash lookup is passed as the function
`getHashes`. -/
def attach_hashes (getHashes : Req → Option (Finset String)) (r : Req) :
    Option (Finset String) :=
  if r.editable || r.locator.isSome then some ∅
  else if is_pinned_requirement r then getHashes r
  else none

/-! ### Helper lemmas about pinnedness -/

theorem sortSpecs_singleton (a : VSpec) : sortSpecs {a} = [a] := rfl

theorem exactVersionOf_isSome_iff (r : Req) :
    (exactVersionOf r).isSome = true ↔
      (r.specs.card = 1 ∧ ∀ s ∈ r.specs, isExact s = true) := by
  constructor
  · intro h
    unfold exactVersionOf at h
    rcases hl : sortSpecs r.specs with _ | ⟨s, _ | ⟨t, ts⟩⟩
    · rw [hl] at h; simp at h
    · have hcard : r.specs.card = 1 := by
        have hlen := sortFinset_length vspecLE r.specs
        rw [show sortFinset vspecLE r.specs = sortSpecs r.specs from rfl, hl] at hlen
        exact hlen.symm
      refine ⟨hcard, ?_⟩
      intro u hu
      have hmem : u ∈ sortSpecs r.specs := (sortFinset_mem vspecLE r.specs u).mpr hu
      rw [hl] at hmem
      have hus : u = s := by simpa using hmem
      rw [hl] at h
      by_cases hex : isExact s = true
      · rwa [hus]
      · simp [hex] at h
    · rw [hl] at h; simp at h
  · rintro ⟨hcard, hall⟩
    obtain ⟨a, ha⟩ := Finset.card_eq_one.mp hcard
    have hexa : isExact a = true := hall a (by rw [ha]; exact Finset.mem_singleton_self a)
    unfold exactVersionOf
    rw [ha, sortSpecs_singleton]
    simp [hexa]

/-- C2: `is_pinned_requirement` is true exactly when the specifier set
consists of one exact `==`-style constraint, or the requirement is
editable or carries a source locator. -/
theorem is_pinned_requirement_iff (r : Req) :
    is_pinned_requirement r = true ↔
      ((r.specs.card = 1 ∧ ∀ s ∈ r.specs, isExact s = true) ∨
        r.editable = true ∨ r.locator.isSome = true) := by
  unfold is_pinned_requirement
  rw [Bool.or_eq_true, Bool.or_eq_true, exactVersionOf_isSome_iff]
  tauto

/-! ### Concrete sample requirements (mirroring the tests) -/

/-- `foo==1.1` -/
def rFoo : Req :=
  { name := "foo", specs := {("==", "1.1")}, extras := ∅,
    editable := false, locator := none, provenance := ∅ }

/-- `foo[extra1,extra2]==1.1` -/
def rFooEx : Req :=
  { name := "foo", specs := {("==", "1.1")}, extras := {"extra1", "extra2"},
    editable := false, locator := none, provenance := ∅ }

/-- `any>1.2`: neither pinned nor editable. -/
def rAny : Req :=
  { name := "any", specs := {(">", "1.2")}, extras := ∅,
    editable := false, locator := none, provenance := ∅ }

/-- `-e git+git://fake.org/x/y.git#egg=y`: an editable requirement. -/
def rEd : Req :=
  { name := "y", specs := ∅, extras := ∅,
    editable := true, locator := some "git+git://fake.org/x/y.git#egg=y",
    provenance := ∅ }

/-- A backend `_get_dependencies` returning no dependencies. -/
def implA : Req → Finset Req := fun _ => ∅

/-- A backend `_get_dependencies` returning one dependency. -/
def implB : Req → Finset Req := fun _ => {rFoo}

theorem is_pinned_examples :
    is_pinned_requirement rFoo = true ∧
    is_pinned_requirement rAny = false ∧
    is_pinned_requirement rEd = true := by
  refine ⟨by decide, by decide, by decide⟩

/-- C1: `BaseRepository.get_dependencies` raises the precondition
violation exactly when the requirement is neither pinned nor editable
(and then its result does not depend on the backend); when the
requirement is pinned or editable it returns exactly the backend's
dependency set. -/
theorem get_dependencies_precondition (impl impl2 : Req → Finset Req) (ireq : Req) :
    ((∃ e, get_dependencies impl ireq = Except.error e) ↔
      ¬(is_pinned_requirement ireq = true ∨ ireq.editable = true)) ∧
    (is_pinned_requirement ireq = true ∨ ireq.editable = true →
      get_dependencies impl ireq = Except.ok (impl ireq)) ∧
    (¬(is_pinned_requirement ireq = true ∨ ireq.editable = true) →
      get_dependencies impl ireq = get_dependencies impl2 ireq) := by
  have key : (ireq.editable || is_pinned_requirement ireq) = true ↔
      (is_pinned_requirement ireq = true ∨ ireq.editable = true) := by
    rw [Bool.or_eq_true]; tauto
  by_cases hcond : (ireq.editable || is_pinned_requirement ireq) = true
  · refine ⟨?_, ?_, ?_⟩
    · constructor
      · rintro ⟨e, he⟩
        simp [get_dependencies, hcond] at he
      · intro hn; exact absurd (key.mp hcond) hn
    · intro _; simp [get_dependencies, hcond]
    · intro hn; exact absurd (key.mp hcond) hn
  · have hcf : (ireq.editable || is_pinned_requirement ireq) = false := by
      cases h : (ireq.editable || is_pinned_requirement ireq)
      · rfl
      · exact absurd h hcond
    refine ⟨?_, ?_, ?_⟩
    · constructor
      · intro _ hor; exact hcond (key.mpr hor)
      · intro _; exact ⟨RepoError.preconditionViolated, by simp [get_dependencies, hcf]⟩
    · intro hor; exact absurd (key.mpr hor) hcond
    · intro _; simp [get_dependencies, hcf]

theorem get_dependencies_precondition_witness :
    (get_dependencies implA rFoo = Except.ok (implA rFoo)) ∧
    (get_dependencies implA rAny = get_dependencies implB rAny) :=
  ⟨(get_dependencies_precondition implA implB rFoo).2.1 (Or.inl (by decide)),
   (get_dependencies_precondition implA implB rAny).2.2 (by decide)⟩

/-- C8: `BaseRepository.prepare_ireq` invokes the backend
`_get_dependencies` directly and succeeds on every requirement; in
particular, on a requirement that is neither pinned nor editable it does
not raise the precondition error that `get_dependencies` raises for the
same input. -/
theorem prepare_ireq_no_precondition (impl : Req → Finset Req) (ireq : Req) :
    prepare_ireq impl ireq = Except.ok (impl ireq) ∧
    (¬(is_pinned_requirement ireq = true ∨ ireq.editable = true) →
      ∃ e, get_dependencies impl ireq = Except.error e ∧
        prepare_ireq impl ireq ≠ Except.error e) := by
  refine ⟨rfl, ?_⟩
  intro hcon
  refine ⟨RepoError.preconditionViolated, ?_, by simp [prepare_ireq]⟩
  have hed : ireq.editable = false := by
    cases h : ireq.editable
    · rfl
    · exact absurd (Or.inr h) hcon
  have hp : is_pinned_requirement ireq = false := by
    cases h : is_pinned_requirement ireq
    · rfl
    · exact absurd (Or.inl h) hcon
  simp [get_dependencies, hed, hp]

theorem prepare_ireq_no_precondition_witness :
    ∃ e, get_dependencies implA rAny = Except.error e ∧
      prepare_ireq implA rAny ≠ Except.error e :=
  (prepare_ireq_no_precondition implA rAny).2 (by decide)

/-- C3: hash attachment gives every editable or source-locator
requirement the empty hash set without consulting the repository hash
lookup, and consults the lookup only on requirements that are pinned and
not editable / source-locator (on all others the result is independent
of the lookup). -/
theorem attach_hashes_exemption (g1 g2 : Req → Option (Finset String)) (r : Req) :
    (r.editable = true ∨ r.locator.isSome = true →
      attach_hashes g1 r = some ∅ ∧ attach_hashes g1 r = attach_hashes g2 r) ∧
    (¬(is_pinned_requirement r = true ∧ r.editable = false ∧ r.locator.isSome = false) →
      attach_hashes g1 r = attach_hashes g2 r) := by
  constructor
  · intro hx
    have hcond : (r.editable || r.locator.isSome) = true := by
      rcases hx with h | h <;> simp [h]
    simp [attach_hashes, hcond]
  · intro hx
    cases hcond : (r.editable || r.locator.isSome) with
    | true => simp [attach_hashes, hcond]
    | false =>
      have hed : r.editable = false := by
        cases h : r.editable
        · rfl
        · rw [h] at hcond; simp at hcond
      have hloc : r.locator.isSome = false := by
        cases h : r.locator.isSome
        · rfl
        · rw [h] at hcond; simp at hcond
      have hp : is_pinned_requirement r = false := by
        cases h : is_pinned_requirement r
        · rfl
        · exact absurd ⟨h, hed, hloc⟩ hx
      simp [attach_hashes, hcond, hp]

theorem attach_hashes_exemption_witness :
    attach_hashes (fun _ => some {"sha256:aaa"}) rEd = some ∅ ∧
    attach_hashes (fun _ => some {"sha256:aaa"}) rEd =
      attach_hashes (fun _ => none) rEd :=
  (attach_hashes_exemption (fun _ => some {"sha256:aaa"}) (fun _ => none) rEd).1
    (Or.inl rfl)

/-- C5: `as_tuple` returns (name, version, extras) where the version
component is `none` exactly when the requirement is not pinned, is the
exact pinned version string when the specifier set pins one version,
and the extras component is sorted. -/
theorem as_tuple_spec (r : Req) :
    ((as_tuple r).2.1 = none ↔ is_pinned_requirement r = false) ∧
    (∀ op v, r.specs = {(op, v)} → isExact (op, v) = true →
      (as_tuple r).2.1 = some v) ∧
    List.Sorted (· ≤ ·) (as_tuple r).2.2 := by
  refine ⟨?_, ?_, ?_⟩
  · cases h : is_pinned_requirement r <;> simp [as_tuple, h]
  · intro op v hs hex
    have hv : exactVersionOf r = some v := by
      unfold exactVersionOf
      rw [hs, sortSpecs_singleton]
      simp [hex]
    have hp : is_pinned_requirement r = true := by
      unfold is_pinned_requirement
      simp [hv]
    simp [as_tuple, hp, pinnedVersionDisplay, hv]
  · exact (sortFinset_sorted strLE r.extras).imp fun h => String.le_iff_toList_le.mpr h

theorem as_tuple_spec_witness :
    (as_tuple rFooEx).2.1 = some "1.1" :=
  (as_tuple_spec rFooEx).2.1 "==" "1.1" rfl (by decide)

/-- The concrete cases of `tests/test_utils.py::test_as_tuple`. -/
theorem as_tuple_examples :
    as_tuple rFoo = ("foo", some "1.1", []) ∧
    as_tuple rFooEx = ("foo", some "1.1", ["extra1", "extra2"]) ∧
    (as_tuple rAny).2.1 = none := by
  refine ⟨by decide, by decide, by decide⟩

/-! ### Constraint Merger

Modelled from the spec: the merger is not under `src/`.  Spec section
4.2: specifier sets are combined by intersecting the allowed-version
predicates, i.e. by taking the union of the predicate sets (deduplicated);
extras and provenance sets are unioned; two differing source locators
for the same name conflict; a locator merged with a plain requirement
yields the locator requirement (source wins over specifier).  A failed
merge (`Error(Conflict)`) is `none`. -/

/-- Combine the source locators of two requirements for the same name:
two distinct locators are a conflict (`none`), otherwise the present
locator (if any) wins. -/
def mergeLoc : Option String → Option String → Option (Option String)
  | none, none => some none
  | some x, none => some (some x)
  | none, some y => some (some y)
  | some x, some y => if x = y then some (some x) else none

/-- Merge two requirements for the same canonical name (spec section
4.2); `none` is `Error(Conflict)`.  Requirements with different names
cannot be merged (a contract violation, also a conflict). -/
def mergeReq (a b : Req) : Option Req :=
  if a.name = b.name then
    (mergeLoc a.locator b.locator).map (fun loc =>
      { name := a.name
        specs := if loc.isSome then ∅ else a.specs ∪ b.specs
        extras := a.extras ∪ b.extras
        editable := a.editable || b.editable
        locator := loc
        provenance := a.provenance ∪ b.provenance })
  else none

theorem mergeLoc_comm (x y : Option String) : mergeLoc x y = mergeLoc y x := by
  cases x <;> cases y <;> simp [mergeLoc]
  split <;> split <;> simp_all

theorem mergeReq_comm (a b : Req) : mergeReq a b = mergeReq b a := by
  unfold mergeReq
  by_cases h : a.name = b.name
  · rw [if_pos h, if_pos h.symm, mergeLoc_comm]
    cases hm : mergeLoc b.locator a.locator with
    | none => rfl
    | some loc =>
      rw [Option.map_some', Option.map_some']
      congr 1
      simp [h, Finset.union_comm, Bool.or_comm]
  · rw [if_neg h, if_neg (fun hh => h hh.symm)]

theorem mergeReq_name (a b m : Req) (h : mergeReq a b = some m) : m.name = a.name := by
  unfold mergeReq at h
  by_cases hn : a.name = b.name
  · rw [if_pos hn] at h
    cases hl : mergeLoc a.locator b.locator with
    | none => rw [hl] at h; simp at h
    | some loc =>
      rw [hl, Option.map_some', Option.some_inj] at h
      rw [← h]
  · rw [if_neg hn] at h; simp at h

theorem mergeReq_assoc (a b c : Req) :
    (mergeReq a b).bind (fun m => mergeReq m c) =
      (mergeReq b c).bind (fun m => mergeReq a m) := by
  by_cases hab : a.name = b.name
  · by_cases hbc : b.name = c.name
    · unfold mergeReq
      rw [if_pos hab, if_pos hbc]
      cases ha : a.locator with
      | none =>
        cases hb : b.locator with
        | none =>
          cases hc : c.locator with
          | none =>
            simp [mergeLoc, hab, hbc, Finset.union_assoc, Bool.or_assoc]
          | some z =>
            simp [mergeLoc, hab, hbc, Finset.union_assoc, Bool.or_assoc]
        | some y =>
          cases hc : c.locator with
          | none =>
            simp [mergeLoc, hab, hbc, Finset.union_assoc, Bool.or_assoc]
          | some z =>
            by_cases hyz : y = z
            · simp [mergeLoc, hab, hbc, hyz, Finset.union_assoc, Bool.or_assoc]
            · simp [mergeLoc, hab, hbc, hyz]
      | some x =>
        cases hb : b.locator with
        | none =>
          cases hc : c.locator with
          | none =>
            simp [mergeLoc, hab, hbc, Finset.union_assoc, Bool.or_assoc]
          | some z =>
            by_cases hxz : x = z
            · simp [mergeLoc, hab, hbc, hxz, Finset.union_assoc, Bool.or_assoc]
            · simp [mergeLoc, hab, hbc, hxz]
        | some y =>
          by_cases hxy : x = y
          · cases hc : c.locator with
            | none =>
              simp [mergeLoc, hab, hbc, hxy, Finset.union_assoc, Bool.or_assoc]
            | some z =>
              by_cases hyz : y = z
              · simp [mergeLoc, hab, hbc, hxy, hyz, hxy.trans hyz,
                  Finset.union_assoc, Bool.or_assoc]
              · simp [mergeLoc, hab, hbc, hxy, hyz, hxy ▸ hyz]
          · cases hc : c.locator with
            | none =>
              simp [mergeLoc, hab, hbc, hxy]
            | some z =>
              by_cases hyz : y = z
              · simp [mergeLoc, hab, hbc, hxy, hyz, hyz ▸ hxy]
              · simp [mergeLoc, hab, hbc, hxy, hyz]
    · -- b and c cannot be merged, and neither can (a⋆b) with c
      have h1 : mergeReq b c = none := by unfold mergeReq; rw [if_neg hbc]
      rw [h1]
      cases h2 : mergeReq a b with
      | none => rfl
      | some m =>
        have hmn : m.name = a.name := mergeReq_name a b m h2
        have : mergeReq m c = none := by
          unfold mergeReq
          rw [if_neg (by rw [hmn, hab]; exact hbc)]
        simp [this]
  · -- a and b cannot be merged, and neither can a with (b⋆c)
    have h1 : mergeReq a b = none := by unfold mergeReq; rw [if_neg hab]
    rw [h1]
    cases h2 : mergeReq b c with
    | none => rfl
    | some m =>
      have hmn : m.name = b.name := mergeReq_name b c m h2
      have : mergeReq a m = none := by
        unfold mergeReq
        rw [if_neg (by rw [hmn]; exact hab)]
      simp [this]

/-- C4: for requirements sharing one canonical name, merging is
commutative and associative: specifier predicates are combined by
intersection (union of predicate sets), extras and provenance sets are
unioned, so the result does not depend on merge order, including the
conflict cases. -/
theorem mergeReq_comm_assoc (a b c : Req) (_h1 : a.name = b.name) (_h2 : b.name = c.name) :
    mergeReq a b = mergeReq b a ∧
    (mergeReq a b).bind (fun m => mergeReq m c) =
      (mergeReq b c).bind (fun m => mergeReq a m) :=
  ⟨mergeReq_comm a b, mergeReq_assoc a b c⟩

/-- `pkg>=1.0` pulled in by `root`. -/
def rPkgLow : Req :=
  { name := "pkg", specs := {(">=", "1.0")}, extras := ∅,
    editable := false, locator := none, provenance := {"root"} }

/-- `pkg<2.0` pulled in by `app`. -/
def rPkgHigh : Req :=
  { name := "pkg", specs := {("<", "2.0")}, extras := {"tls"},
    editable := false, locator := none, provenance := {"app"} }

/-- `pkg==1.5` pulled in by `lib`. -/
def rPkgPin : Req :=
  { name := "pkg", specs := {("==", "1.5")}, extras := ∅,
    editable := false, locator := none, provenance := {"lib"} }

theorem mergeReq_comm_assoc_witness :
    mergeReq rPkgLow rPkgHigh = mergeReq rPkgHigh rPkgLow ∧
    (mergeReq rPkgLow rPkgHigh).bind (fun m => mergeReq m rPkgPin) =
      (mergeReq rPkgHigh rPkgPin).bind (fun m => mergeReq rPkgLow m) :=
  mergeReq_comm_assoc rPkgLow rPkgHigh rPkgPin rfl rfl

/-! ### `dedup` (order-preserving deduplication) -/

/-- Worker for `dedup`: `seen` accumulates the elements already
emitted; an element already seen is dropped. -/
def dedupGo {α : Type} [DecidableEq α] (seen : List α) : List α → List α
  | [] => []
  | x :: xs =>
    if seen.contains x then dedupGo seen xs else x :: dedupGo (x :: seen) xs

/-- Modelled from the spec: `prequ.utils.dedup` is not under `src/`
(only its test is).  Order-preserving deduplication as exercised by
`tests/test_utils.py::test_dedup`: like iterating
`OrderedDict.fromkeys(iterable)`, each element is kept at its first
occurrence and every later duplicate is dropped. -/
def dedup {α : Type} [DecidableEq α] (l : List α) : List α :=
  dedupGo [] l

/-- The claim's declarative reading of deduplication: keep the first
occurrence of each element and drop every later duplicate of it. -/
def keepFirsts {α : Type} [DecidableEq α] : List α → List α
  | [] => []
  | x :: xs => x :: keepFirsts (xs.filter (fun y => y != x))
termination_by l => l.length
decreasing_by
  simp only [List.length_cons]
  exact Nat.lt_succ_of_le (List.length_filter_le _ _)

theorem not_mem_of_contains_eq_false {α : Type} [DecidableEq α] {seen : List α} {x : α}
    (hx : seen.contains x = false) : ¬ x ∈ seen := by
  intro hm
  have hc : seen.contains x = true := by simpa using hm
  rw [hc] at hx
  exact Bool.noConfusion hx

theorem dedupGo_eq_keepFirsts {α : Type} [DecidableEq α] (l : List α) :
    ∀ seen : List α, dedupGo seen l = keepFirsts (l.filter (fun y => !seen.contains y)) := by
  induction l with
  | nil => intro seen; rw [List.filter_nil, keepFirsts, dedupGo]
  | cons x xs ih =>
    intro seen
    cases hx : seen.contains x with
    | true =>
      rw [dedupGo, if_pos hx, List.filter_cons, ih seen]
      rw [if_neg (by show ¬(!seen.contains x) = true; rw [hx]; decide)]
    | false =>
      rw [dedupGo, if_neg (by rw [hx]; exact Bool.false_ne_true), List.filter_cons]
      rw [if_pos (by show (!seen.contains x) = true; rw [hx]; rfl),
        keepFirsts, ih (x :: seen)]
      have hf : xs.filter (fun y => !(x :: seen).contains y) =
          (xs.filter (fun y => !seen.contains y)).filter (fun y => y != x) := by
        rw [List.filter_filter]
        apply List.filter_congr
        intro a _
        show (!(x :: seen).contains a) = ((a != x) && !seen.contains a)
        simp only [List.contains_cons, Bool.not_or, bne]
      rw [hf]

theorem dedupGo_sublist {α : Type} [DecidableEq α] (l : List α) :
    ∀ seen : List α, (dedupGo seen l).Sublist l := by
  induction l with
  | nil => intro seen; exact List.Sublist.refl []
  | cons x xs ih =>
    intro seen
    cases hx : seen.contains x with
    | true => rw [dedupGo, if_pos hx]; exact (ih seen).cons x
    | false =>
      rw [dedupGo, if_neg (by rw [hx]; exact Bool.false_ne_true)]
      exact (ih (x :: seen)).cons₂ x

theorem dedupGo_mem {α : Type} [DecidableEq α] (l : List α) :
    ∀ seen a, a ∈ dedupGo seen l ↔ (a ∈ l ∧ ¬ a ∈ seen) := by
  induction l with
  | nil => intro seen a; simp [dedupGo]
  | cons x xs ih =>
    intro seen a
    cases hx : seen.contains x with
    | true =>
      rw [dedupGo, if_pos hx, ih seen a]
      have hxs : x ∈ seen := by simpa using hx
      constructor
      · rintro ⟨hal, has⟩; exact ⟨List.mem_cons_of_mem x hal, has⟩
      · rintro ⟨hal, has⟩
        rcases List.mem_cons.mp hal with rfl | hal
        · exact absurd hxs has
        · exact ⟨hal, has⟩
    | false =>
      rw [dedupGo, if_neg (by rw [hx]; exact Bool.false_ne_true)]
      have hxs : ¬ x ∈ seen := not_mem_of_contains_eq_false hx
      constructor
      · intro hmem
        rcases List.mem_cons.mp hmem with rfl | hmem
        · exact ⟨List.mem_cons_self a xs, hxs⟩
        · have := (ih (x :: seen) a).mp hmem
          exact ⟨List.mem_cons_of_mem x this.1,
            fun hs => this.2 (List.mem_cons_of_mem x hs)⟩
      · rintro ⟨hal, has⟩
        rcases List.mem_cons.mp hal with rfl | hal
        · exact List.mem_cons_self a _
        · by_cases hax : a = x
          · subst hax; exact List.mem_cons_self a _
          · exact List.mem_cons_of_mem x ((ih (x :: seen) a).mpr
              ⟨hal, fun hs => (List.mem_cons.mp hs).elim hax has⟩)

theorem dedupGo_nodup {α : Type} [DecidableEq α] (l : List α) :
    ∀ seen : List α, (dedupGo seen l).Nodup := by
  induction l with
  | nil => intro seen; exact List.nodup_nil
  | cons x xs ih =>
    intro seen
    cases hx : seen.contains x with
    | true => rw [dedupGo, if_pos hx]; exact ih seen
    | false =>
      rw [dedupGo, if_neg (by rw [hx]; exact Bool.false_ne_true)]
      refine List.nodup_cons.mpr ⟨?_, ih (x :: seen)⟩
      intro hmem
      exact ((dedupGo_mem xs (x :: seen) x).mp hmem).2 (List.mem_cons_self x seen)

/-- C9: `dedup` returns the subsequence of first occurrences of its
input: it equals the declarative keep-first-occurrence function, is a
duplicate-free subsequence of the input, and contains exactly the
input's elements. -/
theorem dedup_spec {α : Type} [DecidableEq α] (l : List α) :
    dedup l = keepFirsts l ∧
    (dedup l).Sublist l ∧
    (dedup l).Nodup ∧
    (∀ a, a ∈ dedup l ↔ a ∈ l) := by
  refine ⟨?_, dedupGo_sublist l [], dedupGo_nodup l [], ?_⟩
  · have h := dedupGo_eq_keepFirsts l []
    simpa [dedup] using h
  · intro a
    have h := dedupGo_mem l [] a
    simpa [dedup] using h

/-- The concrete case of `tests/test_utils.py::test_dedup`. -/
theorem dedup_example : dedup [3, 1, 2, 4, 3, 5] = [3, 1, 2, 4, 5] := by decide

/-! ### `format_specifier` -/

/-- Render one version specifier, e.g. `(">", "1.2")` as `">1.2"`. -/
def showSpec (s : VSpec) : String :=
  s.1 ++ s.2

/-- Modelled from the spec: `prequ.utils.format_specifier` is not under
`src/` (only its test is).  Behaviour per
`tests/test_utils.py::test_format_specifier`: the specifier predicates
of the requirement's input line are sorted deterministically by version
(`foo>1.2,~=1.1,<1.5` and `foo~=1.1,<1.5,>1.2` both print as
`~=1.1,>1.2,<1.5`) and comma-joined; an empty specifier set prints as
`<any>`.  The argument is the specifier list as written in the input
line. -/
def format_specifier (specs : List VSpec) : String :=
  if specs.isEmpty then "<any>"
  else String.intercalate "," ((specs.insertionSort vspecLE).map showSpec)

theorem isEmpty_eq_of_perm {α : Type} {l1 l2 : List α} (p : List.Perm l1 l2) :
    l1.isEmpty = l2.isEmpty := by
  cases l1 with
  | nil =>
    cases l2 with
    | nil => rfl
    | cons y ys =>
      have hn : (y :: ys) = [] := List.perm_nil.mp p.symm
      exact absurd hn (by simp)
  | cons x xs =>
    cases l2 with
    | nil =>
      have hn : (x :: xs) = [] := List.perm_nil.mp p
      exact absurd hn (by simp)
    | cons y ys => rfl

/-- C10: `format_specifier` does not depend on the order in which the
version predicates were written in the input line: permuted specifier
lists format to the identical string. -/
theorem format_specifier_perm (l1 l2 : List VSpec) (h : List.Perm l1 l2) :
    format_specifier l1 = format_specifier l2 := by
  unfold format_specifier
  rw [isEmpty_eq_of_perm h]
  cases he : l2.isEmpty with
  | true => rw [if_pos rfl, if_pos rfl]
  | false =>
    rw [if_neg Bool.false_ne_true, if_neg Bool.false_ne_true]
    have hs : l1.insertionSort vspecLE = l2.insertionSort vspecLE :=
      List.eq_of_perm_of_sorted
        (((List.perm_insertionSort vspecLE l1).trans h).trans
          (List.perm_insertionSort vspecLE l2).symm)
        (List.sorted_insertionSort vspecLE l1)
        (List.sorted_insertionSort vspecLE l2)
    rw [hs]

/-- The concrete permutation pair of
`tests/test_utils.py::test_format_specifier`. -/
theorem format_specifier_perm_witness :
    format_specifier [(">", "1.2"), ("~=", "1.1"), ("<", "1.5")] =
      format_specifier [("~=", "1.1"), ("<", "1.5"), (">", "1.2")] :=
  format_specifier_perm _ _ (by decide)

/-- The concrete outputs of `tests/test_utils.py::test_format_specifier`. -/
theorem format_specifier_examples :
    format_specifier [] = "<any>" ∧
    format_specifier [("==", "1.2")] = "==1.2" ∧
    format_specifier [(">", "1.2"), ("~=", "1.1"), ("<", "1.5")] = "~=1.1,>1.2,<1.5" ∧
    format_specifier [("~=", "1.1"), ("<", "1.5"), (">", "1.2")] = "~=1.1,>1.2,<1.5" := by
  refine ⟨rfl, by decide, by decide, by decide⟩

/-! ### Resolution Loop

Modelled from the spec: the fixed-point resolver (spec section 4.3) is
not under `src/`.  The Repository collaborator (spec section 6) is a
record of its two resolution-time operations; the WorkingSet is a map
from canonical name to the current merged requirement. -/

/-- The Repository collaborator interface used during resolution:
`findBestMatch` returns the best-matching concrete version (`none` =
`NoMatchingVersion`), `getDeps` the direct dependencies of a pinned or
editable requirement. -/
structure Repo where
  findBestMatch : Req → Option String
  getDeps : Req → List Req

/-- WorkingSet: canonical package name → current merged requirement. -/
def WS : Type := String → Option Req

/-- Update one working-set entry. -/
def setWS (ws : WS) (n : String) (v : Option Req) : WS :=
  fun m => if m = n then v else ws m

theorem setWS_same (ws : WS) (n : String) (v : Option Req) : setWS ws n v n = v := by
  simp [setWS]

theorem setWS_ne (ws : WS) (n : String) (v : Option Req) (m : String) (h : m ≠ n) :
    setWS ws n v m = ws m := by
  simp [setWS, h]

theorem setWS_swap (ws : WS) (n1 n2 : String) (v1 v2 : Option Req) (h : n1 ≠ n2) :
    setWS (setWS ws n1 v1) n2 v2 = setWS (setWS ws n2 v2) n1 v1 := by
  funext m
  by_cases h1 : m = n1
  · by_cases h2 : m = n2
    · exact absurd (h1.symm.trans h2) h
    · simp [setWS, h1, h2, h]
  · by_cases h2 : m = n2
    · have hne : ¬ n2 = n1 := fun hh => h hh.symm
      simp [setWS, h1, h2, hne]
    · simp [setWS, h1, h2]

theorem setWS_overwrite (ws : WS) (n : String) (v1 v2 : Option Req) :
    setWS (setWS ws n v1) n v2 = setWS ws n v2 := by
  funext m
  by_cases h : m = n <;> simp [setWS, h]

/-- Merge one raw requirement into the working set (spec section 4.3
step 3): a new name is inserted, an existing entry is merged through the
Constraint Merger; a merge conflict (`none`) aborts the compile. -/
def addReq (ws : WS) (r : Req) : Option WS :=
  match ws r.name with
  | none => some (setWS ws r.name (some r))
  | some w => (mergeReq w r).map (fun m => setWS ws r.name (some m))

/-- Merge a batch of raw requirements into the working set, in order. -/
def addAll (ws : WS) : List Req → Option WS
  | [] => some ws
  | r :: rs =>
    match addReq ws r with
    | none => none
    | some ws2 => addAll ws2 rs

/-- Merging `a` then `b` (used to state that merge order is
irrelevant). -/
def addTwo (ws : WS) (a b : Req) : Option WS :=
  match addReq ws a with
  | none => none
  | some w => addReq w b

theorem mergeReq_right_swap (w a b : Req) :
    (mergeReq w a).bind (fun m => mergeReq m b) =
      (mergeReq w b).bind (fun m => mergeReq m a) := by
  rw [mergeReq_assoc w a b, mergeReq_comm a b, ← mergeReq_assoc w b a]

theorem addReq_of_lookup_none (ws : WS) (r : Req) (h : ws r.name = none) :
    addReq ws r = some (setWS ws r.name (some r)) := by
  unfold addReq; rw [h]

theorem addReq_of_lookup_some (ws : WS) (r w : Req) (h : ws r.name = some w) :
    addReq ws r = (mergeReq w r).map (fun m => setWS ws r.name (some m)) := by
  unfold addReq; rw [h]

theorem addTwo_comm (ws : WS) (a b : Req) : addTwo ws a b = addTwo ws b a := by
  by_cases hn : a.name = b.name
  · -- same canonical name: both updates hit one entry, merge is commutative
    cases hw : ws a.name with
    | none =>
      have hwb : ws b.name = none := hn ▸ hw
      have lalook : (setWS ws a.name (some a)) b.name = some a := by
        rw [← hn]; exact setWS_same ws a.name (some a)
      have lblook : (setWS ws b.name (some b)) a.name = some b := by
        rw [hn]; exact setWS_same ws b.name (some b)
      unfold addTwo
      rw [addReq_of_lookup_none ws a hw, addReq_of_lookup_none ws b hwb]
      show addReq (setWS ws a.name (some a)) b = addReq (setWS ws b.name (some b)) a
      rw [addReq_of_lookup_some _ b a lalook, addReq_of_lookup_some _ a b lblook,
        mergeReq_comm a b]
      have hfun : (fun m => setWS (setWS ws a.name (some a)) b.name (some m)) =
          (fun m => setWS (setWS ws b.name (some b)) a.name (some m)) := by
        funext m
        rw [← hn, setWS_overwrite, setWS_overwrite]
      rw [hfun]
    | some w =>
      have hwb : ws b.name = some w := hn ▸ hw
      have key := mergeReq_right_swap w a b
      unfold addTwo
      rw [addReq_of_lookup_some ws a w hw, addReq_of_lookup_some ws b w hwb]
      cases hma : mergeReq w a with
      | none =>
        rw [hma] at key
        cases hmb : mergeReq w b with
        | none => rfl
        | some m2 =>
          rw [hmb] at key
          simp only [Option.none_bind, Option.some_bind] at key
          have look2 : (setWS ws b.name (some m2)) a.name = some m2 := by
            rw [hn]; exact setWS_same ws b.name (some m2)
          show (none : Option WS) = addReq (setWS ws b.name (some m2)) a
          rw [addReq_of_lookup_some _ a m2 look2, ← key]
          rfl
      | some m1 =>
        rw [hma] at key
        have look1 : (setWS ws a.name (some m1)) b.name = some m1 := by
          rw [← hn]; exact setWS_same ws a.name (some m1)
        cases hmb : mergeReq w b with
        | none =>
          rw [hmb] at key
          simp only [Option.none_bind, Option.some_bind] at key
          show addReq (setWS ws a.name (some m1)) b = (none : Option WS)
          rw [addReq_of_lookup_some _ b m1 look1, key]
          rfl
        | some m2 =>
          rw [hmb] at key
          simp only [Option.some_bind] at key
          have look2 : (setWS ws b.name (some m2)) a.name = some m2 := by
            rw [hn]; exact setWS_same ws b.name (some m2)
          show addReq (setWS ws a.name (some m1)) b = addReq (setWS ws b.name (some m2)) a
          rw [addReq_of_lookup_some _ b m1 look1, addReq_of_lookup_some _ a m2 look2, key]
          have hfun : (fun m => setWS (setWS ws a.name (some m1)) b.name (some m)) =
              (fun m => setWS (setWS ws b.name (some m2)) a.name (some m)) := by
            funext m
            rw [← hn, setWS_overwrite, setWS_overwrite]
          rw [hfun]
  · -- distinct names: the two updates are independent
    have hn' : b.name ≠ a.name := fun hh => hn hh.symm
    cases hwa : ws a.name with
    | none =>
      cases hwb : ws b.name with
      | none =>
        unfold addTwo
        rw [addReq_of_lookup_none ws a hwa, addReq_of_lookup_none ws b hwb]
        show addReq (setWS ws a.name (some a)) b = addReq (setWS ws b.name (some b)) a
        rw [addReq_of_lookup_none _ b
            (by rw [setWS_ne ws a.name (some a) b.name hn']; exact hwb),
          addReq_of_lookup_none _ a
            (by rw [setWS_ne ws b.name (some b) a.name hn]; exact hwa),
          setWS_swap ws a.name b.name (some a) (some b) hn]
      | some wb =>
        unfold addTwo
        rw [addReq_of_lookup_none ws a hwa, addReq_of_lookup_some ws b wb hwb]
        cases hmb : mergeReq wb b with
        | none =>
          show addReq (setWS ws a.name (some a)) b = (none : Option WS)
          rw [addReq_of_lookup_some _ b wb
              (by rw [setWS_ne ws a.name (some a) b.name hn']; exact hwb), hmb]
          rfl
        | some m =>
          show addReq (setWS ws a.name (some a)) b = addReq (setWS ws b.name (some m)) a
          rw [addReq_of_lookup_some _ b wb
              (by rw [setWS_ne ws a.name (some a) b.name hn']; exact hwb), hmb,
            addReq_of_lookup_none _ a
              (by rw [setWS_ne ws b.name (some m) a.name hn]; exact hwa),
            Option.map_some']
          rw [setWS_swap ws a.name b.name (some a) (some m) hn]
    | some wa =>
      cases hwb : ws b.name with
      | none =>
        unfold addTwo
        rw [addReq_of_lookup_some ws a wa hwa, addReq_of_lookup_none ws b hwb]
        cases hma : mergeReq wa a with
        | none =>
          show (none : Option WS) = addReq (setWS ws b.name (some b)) a
          rw [addReq_of_lookup_some _ a wa
              (by rw [setWS_ne ws b.name (some b) a.name hn]; exact hwa), hma]
          rfl
        | some m =>
          show addReq (setWS ws a.name (some m)) b = addReq (setWS ws b.name (some b)) a
          rw [addReq_of_lookup_none _ b
              (by rw [setWS_ne ws a.name (some m) b.name hn']; exact hwb),
            addReq_of_lookup_some _ a wa
              (by rw [setWS_ne ws b.name (some b) a.name hn]; exact hwa), hma,
            Option.map_some']
          rw [setWS_swap ws a.name b.name (some m) (some b) hn]
      | some wb =>
        unfold addTwo
        rw [addReq_of_lookup_some ws a wa hwa, addReq_of_lookup_some ws b wb hwb]
        cases hma : mergeReq wa a with
        | none =>
          cases hmb : mergeReq wb b with
          | none => rfl
          | some m2 =>
            show (none : Option WS) = addReq (setWS ws b.name (some m2)) a
            rw [addReq_of_lookup_some _ a wa
                (by rw [setWS_ne ws b.name (some m2) a.name hn]; exact hwa), hma]
            rfl
        | some m1 =>
          cases hmb : mergeReq wb b with
          | none =>
            show addReq (setWS ws a.name (some m1)) b = (none : Option WS)
            rw [addReq_of_lookup_some _ b wb
                (by rw [setWS_ne ws a.name (some m1) b.name hn']; exact hwb), hmb]
            rfl
          | some m2 =>
            show addReq (setWS ws a.name (some m1)) b = addReq (setWS ws b.name (some m2)) a
            rw [addReq_of_lookup_some _ b wb
                (by rw [setWS_ne ws a.name (some m1) b.name hn']; exact hwb), hmb,
              addReq_of_lookup_some _ a wa
                (by rw [setWS_ne ws b.name (some m2) a.name hn]; exact hwa), hma,
              Option.map_some', Option.map_some']
            rw [setWS_swap ws a.name b.name (some m1) (some m2) hn]

theorem addAll_cons (ws : WS) (r : Req) (l : List Req) :
    addAll ws (r :: l) =
      match addReq ws r with
      | none => none
      | some w => addAll w l := rfl

theorem addAll_cons_cons (ws : WS) (a b : Req) (l : List Req) :
    addAll ws (a :: b :: l) =
      match addTwo ws a b with
      | none => none
      | some w => addAll w l := by
  rw [addAll_cons]
  cases h1 : addReq ws a with
  | none => unfold addTwo; rw [h1]
  | some w =>
    unfold addTwo
    rw [h1]
    show addAll w (b :: l) = _
    exact addAll_cons w b l

theorem addAll_eq_of_perm {l1 l2 : List Req} (p : List.Perm l1 l2) :
    ∀ ws : WS, addAll ws l1 = addAll ws l2 := by
  induction p with
  | nil => intro ws; rfl
  | cons x p ih =>
    intro ws
    rw [addAll_cons, addAll_cons]
    cases addReq ws x with
    | none => rfl
    | some w => exact ih w
  | swap x y l =>
    intro ws
    rw [addAll_cons_cons, addAll_cons_cons, addTwo_comm ws y x]
  | trans p1 p2 ih1 ih2 => intro ws; exact (ih1 ws).trans (ih2 ws)

theorem foldl_eq_of_perm_of_comm {α β : Type} (g : β → α → β)
    (hc : ∀ s a b, g (g s a) b = g (g s b) a) {l1 l2 : List α} (p : List.Perm l1 l2) :
    ∀ s : β, l1.foldl g s = l2.foldl g s := by
  induction p with
  | nil => intro s; rfl
  | cons x p ih =>
    intro s
    rw [List.foldl_cons, List.foldl_cons]
    exact ih (g s x)
  | swap x y l =>
    intro s
    rw [List.foldl_cons, List.foldl_cons, List.foldl_cons, List.foldl_cons, hc s y x]
  | trans p1 p2 ih1 ih2 => intro s; exact (ih1 s).trans (ih2 s)

theorem foldl_pin_eq_of_perm {l1 l2 : List Req} (p : List.Perm l1 l2) :
    (l1.map Req.name).Nodup →
    ∀ ws : WS, l1.foldl (fun w e => setWS w e.name (some e)) ws =
      l2.foldl (fun w e => setWS w e.name (some e)) ws := by
  induction p with
  | nil => intro _ ws; rfl
  | cons x p ih =>
    intro hnd ws
    rw [List.foldl_cons, List.foldl_cons]
    refine ih ?_ _
    exact (List.nodup_cons.mp (by simpa using hnd)).2
  | swap x y l =>
    intro hnd ws
    have h2 : (y.name :: x.name :: l.map Req.name).Nodup := by simpa using hnd
    have hxy : y.name ≠ x.name := by
      intro hh
      exact (List.nodup_cons.mp h2).1 (by rw [hh]; exact List.mem_cons_self x.name _)
    rw [List.foldl_cons, List.foldl_cons, List.foldl_cons, List.foldl_cons,
      setWS_swap ws y.name x.name (some y) (some x) hxy]
  | trans p1 p2 ih1 ih2 =>
    intro hnd ws
    exact (ih1 hnd ws).trans (ih2 ((p1.map Req.name).nodup hnd) ws)

theorem all_eq_of_perm {α : Type} {l1 l2 : List α} (p : List.Perm l1 l2) (f : α → Bool) :
    l1.all f = l2.all f := by
  induction p with
  | nil => rfl
  | cons x p ih => rw [List.all_cons, List.all_cons, ih]
  | swap x y l =>
    simp only [List.all_cons, ← Bool.and_assoc]
    rw [Bool.and_comm (f y) (f x)]
  | trans p1 p2 ih1 ih2 => exact ih1.trans ih2

/-- Pin one working-set entry (spec section 4.3 steps 1-2): an editable
or source-locator entry is treated as already resolved; a plain entry is
pinned to the best-matching version, and `NoMatchingVersion` (`none`) is
a conflict. -/
def pinEntry (repo : Repo) (e : Req) : Option Req :=
  if e.editable || e.locator.isSome then some e
  else
    match repo.findBestMatch e with
    | none => none
    | some v => some { e with specs := {("==", v)} }

/-- Pin every entry of the round's batch, against the round-start
snapshot. -/
def pinAll (repo : Repo) (batch : List Req) : List Req :=
  batch.map (fun e => (pinEntry repo e).getD e)

theorem pinAll_name (repo : Repo) (e : Req) :
    ((pinEntry repo e).getD e).name = e.name := by
  unfold pinEntry
  by_cases h : (e.editable || e.locator.isSome) = true
  · rw [if_pos h]; rfl
  · rw [if_neg h]
    cases repo.findBestMatch e with
    | none => rfl
    | some v => rfl

theorem pinAll_names (repo : Repo) (l : List Req) :
    (pinAll repo l).map Req.name = l.map Req.name := by
  induction l with
  | nil => rfl
  | cons x xs ih =>
    show ((pinEntry repo x).getD x).name :: (pinAll repo xs).map Req.name =
      x.name :: xs.map Req.name
    rw [pinAll_name repo x, ih]

/-- Resolver state: the working set plus the per-name
already-expanded-in-this-compile markers (spec section 5). -/
structure RState where
  ws : WS
  expanded : String → Bool

/-- Mark one requirement's name as expanded. -/
def markExpanded (ex : String → Bool) (e : Req) : String → Bool :=
  fun n => ex n || decide (n = e.name)

theorem markExpanded_comm (ex : String → Bool) (e1 e2 : Req) :
    markExpanded (markExpanded ex e1) e2 = markExpanded (markExpanded ex e2) e1 := by
  funext n
  show ((ex n || decide (n = e1.name)) || decide (n = e2.name)) =
    ((ex n || decide (n = e2.name)) || decide (n = e1.name))
  rw [Bool.or_assoc, Bool.or_assoc, Bool.or_comm (decide (n = e1.name)) (decide (n = e2.name))]

/-- One EXPANDING round (spec section 4.3): every entry of the batch
(the working-set entries discoverable at the start of the round) is
pinned against the round-start snapshot and marked expanded, then the
direct dependencies of all pinned entries are merged into the working
set as one batch.  `none` is a CONFLICT (no matching version, or a merge
conflict). -/
def resolveRound (repo : Repo) (st : RState) (batch : List Req) : Option RState :=
  if batch.all (fun e => (pinEntry repo e).isSome) then
    match addAll ((pinAll repo batch).foldl (fun w e => setWS w e.name (some e)) st.ws)
        ((pinAll repo batch).flatMap repo.getDeps) with
    | none => none
    | some ws2 => some ⟨ws2, (pinAll repo batch).foldl markExpanded st.expanded⟩
  else none

/-- Terminal outcomes of the resolution loop (spec section 4.3). -/
inductive Outcome where
  | stable (ws : WS)
  | conflict
  | roundLimitExceeded

/-- Modelled from the spec: the fixed-point driver (spec section 4.3).
`fuel` is the number of rounds the hard round cap still allows;
`orderFn` enumerates, in some iteration order, the working-set entries
to expand in this round (empty batch = no change = STABLE).  Running out
of rounds with work remaining is `ROUND_LIMIT_EXCEEDED`. -/
def resolveLoop (repo : Repo) (orderFn : RState → List Req) : Nat → RState → Outcome
  | 0, st => if (orderFn st).isEmpty then .stable st.ws else .roundLimitExceeded
  | fuel + 1, st =>
    if (orderFn st).isEmpty then .stable st.ws
    else
      match resolveRound repo st (orderFn st) with
      | none => .conflict
      | some st2 => resolveLoop repo orderFn fuel st2

theorem resolveRound_eq_of_perm (repo : Repo) (st : RState) {b1 b2 : List Req}
    (p : List.Perm b1 b2) (hnd : (b1.map Req.name).Nodup) :
    resolveRound repo st b1 = resolveRound repo st b2 := by
  have hpin : List.Perm (pinAll repo b1) (pinAll repo b2) := p.map _
  have hndpin : ((pinAll repo b1).map Req.name).Nodup := by
    rw [pinAll_names]; exact hnd
  unfold resolveRound
  rw [all_eq_of_perm p (fun e => (pinEntry repo e).isSome)]
  cases hc : b2.all (fun e => (pinEntry repo e).isSome) with
  | false => rfl
  | true =>
    have h1 : (pinAll repo b1).foldl (fun w e => setWS w e.name (some e)) st.ws =
        (pinAll repo b2).foldl (fun w e => setWS w e.name (some e)) st.ws :=
      foldl_pin_eq_of_perm hpin hndpin st.ws
    have h2 : ∀ X : WS, addAll X ((pinAll repo b1).flatMap repo.getDeps) =
        addAll X ((pinAll repo b2).flatMap repo.getDeps) := fun X =>
      addAll_eq_of_perm (hpin.flatMap_right repo.getDeps) X
    have h3 : (pinAll repo b1).foldl markExpanded st.expanded =
        (pinAll repo b2).foldl markExpanded st.expanded :=
      foldl_eq_of_perm_of_comm markExpanded markExpanded_comm hpin st.expanded
    rw [h1, h2, h3]

/-- C6: determinism of the resolution loop in the iteration order: for a
fixed Repository, two runs that enumerate the entries of each round's
batch in different orders (permutations of one another; the working-set
invariant gives each batch distinct canonical names) produce identical
terminal outcomes, including the terminal WorkingSet. -/
theorem resolveLoop_deterministic (repo : Repo) (f1 f2 : RState → List Req)
    (hperm : ∀ s, List.Perm (f1 s) (f2 s))
    (hnd : ∀ s, ((f1 s).map Req.name).Nodup) :
    ∀ (fuel : Nat) (st : RState),
      resolveLoop repo f1 fuel st = resolveLoop repo f2 fuel st := by
  intro fuel
  induction fuel with
  | zero =>
    intro st
    show (if (f1 st).isEmpty then Outcome.stable st.ws else Outcome.roundLimitExceeded) =
      (if (f2 st).isEmpty then Outcome.stable st.ws else Outcome.roundLimitExceeded)
    rw [isEmpty_eq_of_perm (hperm st)]
  | succ n ih =>
    intro st
    show (if (f1 st).isEmpty then Outcome.stable st.ws
        else
          match resolveRound repo st (f1 st) with
          | none => Outcome.conflict
          | some st2 => resolveLoop repo f1 n st2) =
      (if (f2 st).isEmpty then Outcome.stable st.ws
        else
          match resolveRound repo st (f2 st) with
          | none => Outcome.conflict
          | some st2 => resolveLoop repo f2 n st2)
    rw [isEmpty_eq_of_perm (hperm st),
      resolveRound_eq_of_perm repo st (hperm st) (hnd st)]
    cases he : (f2 st).isEmpty with
    | true => rfl
    | false =>
      cases hr : resolveRound repo st (f2 st) with
      | none => rfl
      | some st2 =>
        show resolveLoop repo f1 n st2 = resolveLoop repo f2 n st2
        exact ih st2

/-- A repository resolving everything to version 1.0 with no
dependencies. -/
def repoW : Repo :=
  { findBestMatch := fun _ => some "1.0", getDeps := fun _ => [] }

/-- The empty initial resolver state. -/
def stW : RState :=
  { ws := fun _ => none, expanded := fun _ => false }

/-- One iteration order over a two-entry batch. -/
def f1W : RState → List Req := fun _ => [rPkgLow, rEd]

/-- The opposite iteration order over the same batch. -/
def f2W : RState → List Req := fun _ => [rEd, rPkgLow]

theorem f1W_nodup : (([rPkgLow, rEd] : List Req).map Req.name).Nodup := by decide

theorem resolveLoop_deterministic_witness :
    resolveLoop repoW f1W 2 stW = resolveLoop repoW f2W 2 stW :=
  resolveLoop_deterministic repoW f1W f2W
    (fun _ => List.Perm.swap rEd rPkgLow [])
    (fun _ => f1W_nodup) 2 stW

/-- C7: the resolution loop always terminates, in one of the three
terminal outcomes STABLE, CONFLICT or ROUND_LIMIT_EXCEEDED; once the
round cap is used up with work remaining the outcome is
ROUND_LIMIT_EXCEEDED, which is distinct from CONFLICT. -/
theorem resolveLoop_terminates (repo : Repo) (f : RState → List Req)
    (fuel : Nat) (st : RState) :
    ((∃ ws, resolveLoop repo f fuel st = Outcome.stable ws) ∨
      resolveLoop repo f fuel st = Outcome.conflict ∨
      resolveLoop repo f fuel st = Outcome.roundLimitExceeded) ∧
    (Outcome.roundLimitExceeded ≠ Outcome.conflict) ∧
    ((f st).isEmpty = false →
      resolveLoop repo f 0 st = Outcome.roundLimitExceeded) := by
  refine ⟨?_, ?_, ?_⟩
  · cases ho : resolveLoop repo f fuel st with
    | stable ws => exact Or.inl ⟨ws, rfl⟩
    | conflict => exact Or.inr (Or.inl rfl)
    | roundLimitExceeded => exact Or.inr (Or.inr rfl)
  · intro h; exact Outcome.noConfusion h
  · intro he
    show (if (f st).isEmpty then Outcome.stable st.ws else Outcome.roundLimitExceeded) =
      Outcome.roundLimitExceeded
    rw [he, if_neg Bool.false_ne_true]

theorem resolveLoop_terminates_witness :
    resolveLoop repoW f1W 0 stW = Outcome.roundLimitExceeded :=
  (resolveLoop_terminates repoW f1W 0 stW).2.2 (by decide)

end Prequ
